import Mathlib

/-!
Shallow embedding of the NEAR task-tracking contract
(`src/contract/src/lib.rs`) and verification of its specification.

The contract keeps two persistent maps:
- `tasks_by_account : LookupMap<AccountId, Vec<TaskId>>` (the owner index);
- `tasks : LookupMap<TaskId, Task>` (the record store).

Both `LookupMap`s are modelled as total functions into `Option`.  The
caller identity (`env::predecessor_account_id()`) is passed explicitly
as the `owner` argument of every method.  The `unwrap` inside
`get_tasks` is modelled by letting `get_tasks` return
`Option (List Task)`, with `none` standing for the panic.
-/

namespace NearTasks

/-- Rust: `type TaskId = String;` -/
abbrev TaskId := String

/-- Rust: `near_sdk::AccountId`, treated by the contract as an opaque string. -/
abbrev AccountId := String

/-- Rust struct `Task { id, task_name, task_status }`. -/
structure Task where
  id : TaskId
  task_name : String
  task_status : String
deriving DecidableEq

/-- Rust struct `Contract { tasks_by_account, tasks }`; each `LookupMap`
is modelled as a function to `Option`. -/
structure Contract where
  tasks_by_account : AccountId → Option (List TaskId)
  tasks : TaskId → Option Task

/-- Rust `impl Default for Contract`: both maps start empty. -/
def Contract.default : Contract :=
  { tasks_by_account := fun _ => none
    tasks := fun _ => none }

/-- The loop body of `get_tasks`:
`tasks.clone().into_iter().map(|t| self.tasks.get(&t).unwrap()).collect()`.
A failing `unwrap` (the id is absent from the store) is modelled as `none`
for the whole call. -/
def resolveTasks (store : TaskId → Option Task) : List TaskId → Option (List Task)
  | [] => some []
  | i :: is =>
    match store i, resolveTasks store is with
    | some t, some ts => some (t :: ts)
    | _, _ => none

/-- Rust `pub fn get_tasks(&self) -> Vec<Task>`: look the caller up in
`tasks_by_account`; if absent return the empty vector, otherwise resolve
each stored id through `tasks`, unwrapping each lookup. -/
def get_tasks (c : Contract) (owner : AccountId) : Option (List Task) :=
  match c.tasks_by_account owner with
  | some ids => resolveTasks c.tasks ids
  | none => some []

/-- Rust `pub fn insert_task(&mut self, task_name: String)`:
synthesize `task_id = format!("{}.{}", owner, task_name)`, store
`Task { id, task_name, task_status: "TODO" }` under `task_id`, and append
`task_id` to the caller's entry in `tasks_by_account` (creating `[]` first
when the caller had no entry).  The Rust method returns `()`. -/
def insert_task (c : Contract) (owner : AccountId) (task_name : String) : Contract :=
  let task_id : TaskId := owner ++ "." ++ task_name
  let task_obj : Task := { id := task_id, task_name := task_name, task_status := "TODO" }
  let new_task_lists : List TaskId :=
    match c.tasks_by_account owner with
    | some tasks => tasks
    | none => []
  { tasks := fun k => if k = task_id then some task_obj else c.tasks k
    tasks_by_account := fun a =>
      if a = owner then some (new_task_lists ++ [task_id]) else c.tasks_by_account a }

/-- Rust `pub fn update_task(&mut self, task_name: String, task_status: String)`:
recompute `task_id = format!("{}.{}", owner, task_name)` and overwrite the
record store at `task_id` with `Task { id, task_name, task_status }`.
`tasks_by_account` is not touched.  The Rust method returns `()`. -/
def update_task (c : Contract) (owner : AccountId) (task_name task_status : String) : Contract :=
  let task_id : TaskId := owner ++ "." ++ task_name
  let task_obj : Task := { id := task_id, task_name := task_name, task_status := task_status }
  { c with tasks := fun k => if k = task_id then some task_obj else c.tasks k }

/-- Value returned to the caller by `insert_task`.  The Rust signature is
`pub fn insert_task(&mut self, task_name: String)` with no return type,
so no `Task` is ever returned: the result is always `none`. -/
def insert_task_ret (_c : Contract) (_owner : AccountId) (_task_name : String) :
    Option Task := none

/-- Value returned to the caller by `update_task`.  The Rust signature is
`pub fn update_task(&mut self, task_name: String, task_status: String)` with no
return type, so no `Task` is ever returned: the result is always `none`. -/
def update_task_ret (_c : Contract) (_owner : AccountId)
    (_task_name _task_status : String) : Option Task := none

/-- One external call to the contract, tagged with the caller identity the
environment supplies. -/
inductive Op where
  | insert (owner : AccountId) (task_name : String)
  | update (owner : AccountId) (task_name task_status : String)
  | get (owner : AccountId)
deriving DecidableEq

/-- State transition of a single call.  `get_tasks` takes `&self` and
mutates nothing. -/
def step (c : Contract) : Op → Contract
  | .insert o n => insert_task c o n
  | .update o n s => update_task c o n s
  | .get _ => c

/-- State reached from the freshly initialized contract after a sequence
of calls. -/
def run (ops : List Op) : Contract := ops.foldl step Contract.default

/-- Decides whether some call in `ops` is an `insert_task` executed on
behalf of `owner`. -/
def insertsFor (owner : AccountId) (ops : List Op) : Bool :=
  ops.any fun op =>
    match op with
    | .insert o _ => decide (o = owner)
    | _ => false

/-- The list read out of `tasks_by_account` by `insert_task` before the
append: the stored list when the owner has an entry, `[]` otherwise. -/
def prior_list (c : Contract) (o : AccountId) : List TaskId :=
  match c.tasks_by_account o with
  | some tasks => tasks
  | none => []

/-- Invariant I1 of the spec: every identifier present in any owner's index
entry exists as a key in the record store. -/
def IndexInStore (c : Contract) : Prop :=
  ∀ owner ids, c.tasks_by_account owner = some ids → ∀ i ∈ ids, (c.tasks i).isSome

/-- Every record stored under key `k` carries `id = k`. -/
def StoreKeyConsistent (c : Contract) : Prop :=
  ∀ k t, c.tasks k = some t → t.id = k

/-! ### Helper lemmas -/

theorem string_append_cancel_left {a x y : String} (h : a ++ x = a ++ y) : x = y := by
  have hd : (a ++ x).data = (a ++ y).data := by rw [h]
  simp only [String.data_append] at hd
  exact String.ext (List.append_cancel_left hd)

theorem task_id_inj {owner na nb : String}
    (h : owner ++ "." ++ na = owner ++ "." ++ nb) : na = nb :=
  string_append_cancel_left h

theorem resolveTasks_sound (store : TaskId → Option Task) :
    ∀ ids l, resolveTasks store ids = some l → ∀ t ∈ l, ∃ k ∈ ids, store k = some t := by
  intro ids
  induction ids with
  | nil =>
    intro l h t ht
    simp only [resolveTasks, Option.some.injEq] at h
    subst h
    simp at ht
  | cons i is ih =>
    intro l h t ht
    simp only [resolveTasks] at h
    split at h
    next ti ts hi hr =>
      cases h
      rcases List.mem_cons.mp ht with h1 | h2
      · exact ⟨i, List.mem_cons_self i is, by rw [hi, h1]⟩
      · rcases ih ts hr t h2 with ⟨k, hk, hkt⟩
        exact ⟨k, List.mem_cons_of_mem i hk, hkt⟩
    next => exact absurd h (by simp)

theorem resolveTasks_isSome (store : TaskId → Option Task) :
    ∀ ids, (∀ i ∈ ids, (store i).isSome) → ∃ l, resolveTasks store ids = some l := by
  intro ids
  induction ids with
  | nil => intro _; exact ⟨[], rfl⟩
  | cons i is ih =>
    intro h
    rcases Option.isSome_iff_exists.mp (h i (List.mem_cons_self i is)) with ⟨t, ht⟩
    rcases ih (fun j hj => h j (List.mem_cons_of_mem i hj)) with ⟨l, hl⟩
    exact ⟨t :: l, by simp only [resolveTasks, ht, hl]⟩

theorem resolveTasks_congr (st st2 : TaskId → Option Task) :
    ∀ ids, (∀ i ∈ ids, st i = st2 i) → resolveTasks st ids = resolveTasks st2 ids := by
  intro ids
  induction ids with
  | nil => intro _; rfl
  | cons i is ih =>
    intro h
    simp only [resolveTasks]
    rw [h i (List.mem_cons_self i is), ih (fun j hj => h j (List.mem_cons_of_mem i hj))]

theorem resolveTasks_append (st : TaskId → Option Task) {as bs : List TaskId}
    {xs ys : List Task} (h1 : resolveTasks st as = some xs)
    (h2 : resolveTasks st bs = some ys) :
    resolveTasks st (as ++ bs) = some (xs ++ ys) := by
  induction as generalizing xs with
  | nil =>
    simp only [resolveTasks, Option.some.injEq] at h1
    subst h1
    simpa using h2
  | cons i is ih =>
    simp only [resolveTasks] at h1 ⊢
    split at h1
    next ti ts hi hr =>
      cases h1
      simp only [List.cons_append, resolveTasks, List.append_eq, hi, ih hr]
    next => exact absurd h1 (by simp)

theorem resolveTasks_count (st : TaskId → Option Task) {t : Task} {k : TaskId}
    (hk : st k = some t) :
    ∀ ids l, resolveTasks st ids = some l → ids.count k ≤ l.count t := by
  intro ids
  induction ids with
  | nil =>
    intro l h
    simp only [resolveTasks, Option.some.injEq] at h
    subst h
    simp
  | cons i is ih =>
    intro l h
    simp only [resolveTasks] at h
    split at h
    next ti ts hi hr =>
      cases h
      rw [List.count_cons, List.count_cons]
      by_cases hik : i = k
      · subst hik
        rw [hi] at hk
        cases hk
        simp only [beq_self_eq_true, if_true]
        exact Nat.add_le_add (ih ts hr) (le_refl 1)
      · have hbk : (i == k) = false := by simp [hik]
        simp only [hbk, if_false, Nat.add_zero]
        exact Nat.le_trans (ih ts hr) (Nat.le_add_right _ _)
    next => exact absurd h (by simp)

theorem insert_task_tasks (c : Contract) (o n : String) (k : TaskId) :
    (insert_task c o n).tasks k =
      if k = o ++ "." ++ n
      then some { id := o ++ "." ++ n, task_name := n, task_status := "TODO" }
      else c.tasks k := rfl

theorem insert_task_index (c : Contract) (o n : String) (a : AccountId) :
    (insert_task c o n).tasks_by_account a =
      if a = o
      then some (prior_list c o ++ [o ++ "." ++ n])
      else c.tasks_by_account a := rfl

theorem update_task_tasks (c : Contract) (o n s : String) (k : TaskId) :
    (update_task c o n s).tasks k =
      if k = o ++ "." ++ n
      then some { id := o ++ "." ++ n, task_name := n, task_status := s }
      else c.tasks k := rfl

theorem update_task_index (c : Contract) (o n s : String) :
    (update_task c o n s).tasks_by_account = c.tasks_by_account := rfl

theorem mem_prior_list {c : Contract} {o : AccountId} {i : TaskId}
    (h : i ∈ prior_list c o) : ∃ ids, c.tasks_by_account o = some ids ∧ i ∈ ids := by
  cases hpl : c.tasks_by_account o with
  | none => simp [prior_list, hpl] at h
  | some ts =>
    refine ⟨ts, rfl, ?_⟩
    simpa [prior_list, hpl] using h

/-! ### Invariants of reachable states -/

theorem indexInStore_default : IndexInStore Contract.default := by
  intro owner ids h
  simp [Contract.default] at h

theorem storeKeyConsistent_default : StoreKeyConsistent Contract.default := by
  intro k t h
  simp [Contract.default] at h

theorem indexInStore_insert {c : Contract} (o n : String) (h : IndexInStore c) :
    IndexInStore (insert_task c o n) := by
  intro owner ids hidx i hi
  rw [insert_task_index] at hidx
  rw [insert_task_tasks]
  by_cases hit : i = o ++ "." ++ n
  · rw [if_pos hit]; rfl
  · rw [if_neg hit]
    by_cases ho : owner = o
    · rw [if_pos ho, Option.some.injEq] at hidx
      subst hidx
      rcases List.mem_append.mp hi with h1 | h2
      · rcases mem_prior_list h1 with ⟨ts, hts, hits⟩
        exact h o ts hts i hits
      · rw [List.mem_singleton] at h2
        exact absurd h2 hit
    · rw [if_neg ho] at hidx
      exact h owner ids hidx i hi

theorem indexInStore_update {c : Contract} (o n s : String) (h : IndexInStore c) :
    IndexInStore (update_task c o n s) := by
  intro owner ids hidx i hi
  rw [update_task_index] at hidx
  rw [update_task_tasks]
  by_cases hit : i = o ++ "." ++ n
  · rw [if_pos hit]; rfl
  · rw [if_neg hit]
    exact h owner ids hidx i hi

theorem storeKeyConsistent_insert {c : Contract} (o n : String)
    (h : StoreKeyConsistent c) : StoreKeyConsistent (insert_task c o n) := by
  intro k t ht
  rw [insert_task_tasks] at ht
  by_cases hk : k = o ++ "." ++ n
  · rw [if_pos hk, Option.some.injEq] at ht
    rw [← ht, hk]
  · rw [if_neg hk] at ht
    exact h k t ht

theorem storeKeyConsistent_update {c : Contract} (o n s : String)
    (h : StoreKeyConsistent c) : StoreKeyConsistent (update_task c o n s) := by
  intro k t ht
  rw [update_task_tasks] at ht
  by_cases hk : k = o ++ "." ++ n
  · rw [if_pos hk, Option.some.injEq] at ht
    rw [← ht, hk]
  · rw [if_neg hk] at ht
    exact h k t ht

theorem indexInStore_step {c : Contract} (op : Op) (h : IndexInStore c) :
    IndexInStore (step c op) := by
  cases op with
  | insert o n => exact indexInStore_insert o n h
  | update o n s => exact indexInStore_update o n s h
  | get _ => exact h

theorem storeKeyConsistent_step {c : Contract} (op : Op) (h : StoreKeyConsistent c) :
    StoreKeyConsistent (step c op) := by
  cases op with
  | insert o n => exact storeKeyConsistent_insert o n h
  | update o n s => exact storeKeyConsistent_update o n s h
  | get _ => exact h

theorem indexInStore_foldl :
    ∀ (ops : List Op) (c : Contract), IndexInStore c → IndexInStore (ops.foldl step c) := by
  intro ops
  induction ops with
  | nil => intro c h; exact h
  | cons op ops ih =>
    intro c h
    exact ih (step c op) (indexInStore_step op h)

theorem storeKeyConsistent_foldl :
    ∀ (ops : List Op) (c : Contract),
      StoreKeyConsistent c → StoreKeyConsistent (ops.foldl step c) := by
  intro ops
  induction ops with
  | nil => intro c h; exact h
  | cons op ops ih =>
    intro c h
    exact ih (step c op) (storeKeyConsistent_step op h)

theorem indexInStore_run (ops : List Op) : IndexInStore (run ops) :=
  indexInStore_foldl ops Contract.default indexInStore_default

theorem storeKeyConsistent_run (ops : List Op) : StoreKeyConsistent (run ops) :=
  storeKeyConsistent_foldl ops Contract.default storeKeyConsistent_default

theorem run_append (ops ops2 : List Op) :
    run (ops ++ ops2) = ops2.foldl step (run ops) :=
  List.foldl_append step Contract.default ops ops2

theorem get_tasks_isSome_of_indexInStore {c : Contract} (h : IndexInStore c)
    (owner : AccountId) : ∃ l, get_tasks c owner = some l := by
  unfold get_tasks
  cases hidx : c.tasks_by_account owner with
  | none => exact ⟨[], rfl⟩
  | some ids => exact resolveTasks_isSome c.tasks ids (fun i hi => h owner ids hidx i hi)

theorem resolveTasks_complete (store : TaskId → Option Task) :
    ∀ ids l, resolveTasks store ids = some l →
      ∀ k ∈ ids, ∀ t, store k = some t → t ∈ l := by
  intro ids
  induction ids with
  | nil =>
    intro l _ k hk
    simp at hk
  | cons i is ih =>
    intro l h k hk t ht
    simp only [resolveTasks] at h
    split at h
    next ti ts hi hr =>
      cases h
      rcases List.mem_cons.mp hk with h1 | h2
      · subst h1
        rw [hi] at ht
        cases ht
        exact List.mem_cons_self _ _
      · exact List.mem_cons_of_mem ti (ih ts hr k h2 t ht)
    next => exact absurd h (by simp)

theorem insert_task_tasks_isSome {c : Contract} (o n : String) (k : TaskId)
    (h : (c.tasks k).isSome) : ((insert_task c o n).tasks k).isSome := by
  rw [insert_task_tasks]
  by_cases hk : k = o ++ "." ++ n
  · rw [if_pos hk]; rfl
  · rw [if_neg hk]; exact h

theorem index_none_of_no_insert :
    ∀ (ops : List Op) (c : Contract) (owner : AccountId),
      c.tasks_by_account owner = none → insertsFor owner ops = false →
      (ops.foldl step c).tasks_by_account owner = none := by
  intro ops
  induction ops with
  | nil => intro c owner hc _; exact hc
  | cons op ops ih =>
    intro c owner hc h
    unfold insertsFor at h
    rw [List.any_cons, Bool.or_eq_false_iff] at h
    have hops : insertsFor owner ops = false := h.2
    rw [List.foldl_cons]
    have hop : (step c op).tasks_by_account owner = none := by
      cases op with
      | insert o n =>
        have ho : o ≠ owner := by simpa using h.1
        show (insert_task c o n).tasks_by_account owner = none
        rw [insert_task_index, if_neg (fun hh => ho hh.symm)]
        exact hc
      | update o n s => exact hc
      | get _ => exact hc
    exact ih (step c op) owner hop hops

/-! ### Claim theorems -/

/-- C1: starting from the empty store, after `insert_task` by `owner` with
name `"task_a"`, `get_tasks` called by `owner` returns exactly one task whose
name is `"task_a"`, whose status is `"TODO"`, and whose id is
`owner ++ ".task_a"`. -/
theorem create_then_list_roundtrip (owner : AccountId) :
    get_tasks (insert_task Contract.default owner "task_a") owner =
      some [{ id := owner ++ ".task_a", task_name := "task_a", task_status := "TODO" }] := by
  have hid : owner ++ "." ++ "task_a" = owner ++ ".task_a" := by
    rw [String.append_assoc]
    rfl
  have hidx : (insert_task Contract.default owner "task_a").tasks_by_account owner
      = some [owner ++ "." ++ "task_a"] := by
    rw [insert_task_index, if_pos rfl]
    rfl
  have hst : (insert_task Contract.default owner "task_a").tasks (owner ++ "." ++ "task_a")
      = some { id := owner ++ "." ++ "task_a", task_name := "task_a",
               task_status := "TODO" } := by
    rw [insert_task_tasks, if_pos rfl]
  unfold get_tasks
  rw [hidx]
  simp only [resolveTasks, hst]
  rw [hid]

/-- C2: for every owner on whose behalf `insert_task` was never executed,
`get_tasks` returns the empty list as an ordinary (`some`) result, whatever
other calls the trace contains. -/
theorem list_empty_for_never_inserted_owner (ops : List Op) (owner : AccountId)
    (h : insertsFor owner ops = false) :
    get_tasks (run ops) owner = some [] := by
  have hnone : (run ops).tasks_by_account owner = none :=
    index_none_of_no_insert ops Contract.default owner rfl h
  unfold get_tasks
  rw [hnone]

/-- Witness for C2, on a trace where a different owner inserts and the owner
itself only runs `update_task` and `get_tasks`. -/
theorem list_empty_for_never_inserted_owner_witness :
    insertsFor "bob" [Op.insert "alice" "task_a", Op.update "bob" "task_x" "DONE",
        Op.get "bob"] = false
    ∧ get_tasks (run [Op.insert "alice" "task_a", Op.update "bob" "task_x" "DONE",
        Op.get "bob"]) "bob" = some [] :=
  ⟨by decide, list_empty_for_never_inserted_owner _ _ (by decide)⟩

/-- C9: invariant I1 holds in every state reachable from the initial empty
contract: every id in any owner's index entry is a key of the record store. -/
theorem reachable_index_ids_in_store (ops : List Op) (owner : AccountId)
    (ids : List TaskId) (h : (run ops).tasks_by_account owner = some ids) :
    ∀ i ∈ ids, ((run ops).tasks i).isSome :=
  indexInStore_run ops owner ids h

/-- Witness for C9 after one insert. -/
theorem reachable_index_ids_in_store_witness :
    (run [Op.insert "alice" "task_a"]).tasks_by_account "alice" = some ["alice.task_a"]
    ∧ ((run [Op.insert "alice" "task_a"]).tasks "alice.task_a").isSome :=
  ⟨by decide,
   reachable_index_ids_in_store [Op.insert "alice" "task_a"] "alice" ["alice.task_a"]
     (by decide) "alice.task_a" (by decide)⟩

/-- C10: the unwrap in `get_tasks` never panics on a reachable state: the
result is always `some`. -/
theorem get_tasks_never_panics (ops : List Op) (owner : AccountId) :
    (get_tasks (run ops) owner).isSome := by
  rcases get_tasks_isSome_of_indexInStore (indexInStore_run ops) owner with ⟨l, hl⟩
  rw [hl]
  rfl

theorem insert_update_get {c : Contract} (hI : IndexInStore c) (hK : StoreKeyConsistent c)
    (owner : AccountId) (name s : String) :
    ∃ l,
      get_tasks (update_task (insert_task c owner name) owner name s) owner = some l
      ∧ ({ id := owner ++ "." ++ name, task_name := name, task_status := s } : Task) ∈ l
      ∧ ∀ t ∈ l, t.id = owner ++ "." ++ name →
          t = { id := owner ++ "." ++ name, task_name := name, task_status := s } := by
  have hI2 : IndexInStore (update_task (insert_task c owner name) owner name s) :=
    indexInStore_update owner name s (indexInStore_insert owner name hI)
  have hK2 : StoreKeyConsistent (update_task (insert_task c owner name) owner name s) :=
    storeKeyConsistent_update owner name s (storeKeyConsistent_insert owner name hK)
  have hidx : (update_task (insert_task c owner name) owner name s).tasks_by_account owner
      = some (prior_list c owner ++ [owner ++ "." ++ name]) := by
    rw [update_task_index, insert_task_index, if_pos rfl]
  have hst : (update_task (insert_task c owner name) owner name s).tasks
      (owner ++ "." ++ name)
      = some { id := owner ++ "." ++ name, task_name := name, task_status := s } := by
    rw [update_task_tasks, if_pos rfl]
  rcases get_tasks_isSome_of_indexInStore hI2 owner with ⟨l, hl⟩
  have hres : resolveTasks (update_task (insert_task c owner name) owner name s).tasks
      (prior_list c owner ++ [owner ++ "." ++ name]) = some l := by
    simp only [get_tasks, hidx] at hl
    exact hl
  refine ⟨l, hl, ?_, ?_⟩
  · exact resolveTasks_complete _ _ l hres _
      (List.mem_append_right _ (List.mem_singleton_self _)) _ hst
  · intro t htl htid
    rcases resolveTasks_sound _ _ l hres t htl with ⟨k, _, hkt⟩
    have hk : k = owner ++ "." ++ name := by
      rw [← htid]
      exact (hK2 k t hkt).symm
    rw [hk, hst, Option.some.injEq] at hkt
    exact hkt.symm

/-- C3: from any reachable state, after `insert_task owner name` then
`update_task owner name s`, `get_tasks owner` succeeds and shows the task
with id `owner ++ "." ++ name` having status `s` and name still `name`;
every listed task carrying that id equals exactly that record. -/
theorem update_status_visible (ops : List Op) (owner : AccountId) (name s : String) :
    ∃ l,
      get_tasks (update_task (insert_task (run ops) owner name) owner name s) owner = some l
      ∧ ({ id := owner ++ "." ++ name, task_name := name, task_status := s } : Task) ∈ l
      ∧ ∀ t ∈ l, t.id = owner ++ "." ++ name →
          t = { id := owner ++ "." ++ name, task_name := name, task_status := s } :=
  insert_update_get (indexInStore_run ops) (storeKeyConsistent_run ops) owner name s

theorem insert_insert_get {c : Contract} (hI : IndexInStore c)
    (owner : AccountId) (na nb : String) :
    ∃ l, get_tasks (insert_task (insert_task c owner na) owner nb) owner =
      some (l ++ [{ id := owner ++ "." ++ na, task_name := na, task_status := "TODO" },
                  { id := owner ++ "." ++ nb, task_name := nb, task_status := "TODO" }]) := by
  have hidx : (insert_task (insert_task c owner na) owner nb).tasks_by_account owner
      = some ((prior_list c owner ++ [owner ++ "." ++ na]) ++ [owner ++ "." ++ nb]) := by
    rw [insert_task_index, if_pos rfl]
    have : prior_list (insert_task c owner na) owner
        = prior_list c owner ++ [owner ++ "." ++ na] := by
      unfold prior_list
      rw [insert_task_index, if_pos rfl]
      rfl
    rw [this]
  have hstb : (insert_task (insert_task c owner na) owner nb).tasks (owner ++ "." ++ nb)
      = some { id := owner ++ "." ++ nb, task_name := nb, task_status := "TODO" } := by
    rw [insert_task_tasks, if_pos rfl]
  have hsta : (insert_task (insert_task c owner na) owner nb).tasks (owner ++ "." ++ na)
      = some { id := owner ++ "." ++ na, task_name := na, task_status := "TODO" } := by
    rw [insert_task_tasks]
    by_cases hab : owner ++ "." ++ na = owner ++ "." ++ nb
    · rw [if_pos hab, ← hab, task_id_inj hab]
    · rw [if_neg hab, insert_task_tasks, if_pos rfl]
  have hprior : ∀ i ∈ prior_list c owner,
      ((insert_task (insert_task c owner na) owner nb).tasks i).isSome := by
    intro i hi
    rcases mem_prior_list hi with ⟨ids, hids, hmem⟩
    exact insert_task_tasks_isSome owner nb i
      (insert_task_tasks_isSome owner na i (hI owner ids hids i hmem))
  rcases resolveTasks_isSome _ (prior_list c owner) hprior with ⟨xs, hxs⟩
  have hpair : resolveTasks (insert_task (insert_task c owner na) owner nb).tasks
      [owner ++ "." ++ na, owner ++ "." ++ nb]
      = some [{ id := owner ++ "." ++ na, task_name := na, task_status := "TODO" },
              { id := owner ++ "." ++ nb, task_name := nb, task_status := "TODO" }] := by
    simp only [resolveTasks, hsta, hstb]
  refine ⟨xs, ?_⟩
  simp only [get_tasks, hidx, List.append_assoc, List.singleton_append]
  exact resolveTasks_append _ hxs hpair

/-- C5: from any reachable state, creating `na` then `nb` under the same owner
makes `get_tasks owner` succeed with a list ending in the task for `na`
followed by the task for `nb`: the first-created task appears before the
second, in index-append order. -/
theorem create_order_preserved (ops : List Op) (owner : AccountId) (na nb : String) :
    ∃ l, get_tasks (insert_task (insert_task (run ops) owner na) owner nb) owner =
      some (l ++ [{ id := owner ++ "." ++ na, task_name := na, task_status := "TODO" },
                  { id := owner ++ "." ++ nb, task_name := nb, task_status := "TODO" }]) :=
  insert_insert_get (indexInStore_run ops) owner na nb

/-- Counterexample to C4 as stated: the Rust signatures
`pub fn insert_task(&mut self, task_name: String)` and
`pub fn update_task(&mut self, task_name: String, task_status: String)` have
no return type, so neither call returns the created or updated Task. -/
theorem insert_update_return_no_task :
    insert_task_ret Contract.default "alice" "task_a"
        ≠ some { id := "alice" ++ "." ++ "task_a", task_name := "task_a",
                 task_status := "TODO" }
    ∧ update_task_ret Contract.default "alice" "task_a" "DONE"
        ≠ some { id := "alice" ++ "." ++ "task_a", task_name := "task_a",
                 task_status := "DONE" } :=
  ⟨by decide, by decide⟩

/-- C4 amended: `insert_task` writes the created Task (id `owner ++ "." ++ n`,
the given name, status `"TODO"`) into the record store but returns nothing to
the caller; likewise `update_task` writes the updated Task and returns
nothing. -/
theorem insert_update_write_task_return_unit (c : Contract) (owner : AccountId)
    (n s : String) :
    insert_task_ret c owner n = none
    ∧ (insert_task c owner n).tasks (owner ++ "." ++ n)
        = some { id := owner ++ "." ++ n, task_name := n, task_status := "TODO" }
    ∧ update_task_ret c owner n s = none
    ∧ (update_task c owner n s).tasks (owner ++ "." ++ n)
        = some { id := owner ++ "." ++ n, task_name := n, task_status := s } :=
  ⟨rfl, by rw [insert_task_tasks, if_pos rfl], rfl,
   by rw [update_task_tasks, if_pos rfl]⟩

/-- Counterexample to C6 as stated: identifier synthesis by string
concatenation lets distinct owners collide.  Owner `"a.b"` creates task
`"c"` (id `"a.b.c"`); then owner `"a"` creates task `"b.c"` (same id
`"a.b.c"`), overwriting the record that `"a.b"`'s index references, so
`get_tasks` for `"a.b"` changes. -/
theorem insert_changes_other_owner_list :
    ("a" : String) ≠ "a.b"
    ∧ get_tasks (run [Op.insert "a.b" "c"]) "a.b"
        = some [{ id := "a.b.c", task_name := "c", task_status := "TODO" }]
    ∧ get_tasks (insert_task (run [Op.insert "a.b" "c"]) "a" "b.c") "a.b"
        = some [{ id := "a.b.c", task_name := "b.c", task_status := "TODO" }]
    ∧ get_tasks (insert_task (run [Op.insert "a.b" "c"]) "a" "b.c") "a.b"
        ≠ get_tasks (run [Op.insert "a.b" "c"]) "a.b" :=
  ⟨by decide, by decide, by decide, by decide⟩

/-- C6 amended: an `insert_task` by owner `A` leaves `get_tasks` for a
different owner `B` unchanged provided the synthesized identifier
`A ++ "." ++ n` does not occur in `B`'s index entry (string-concatenation
identifiers can otherwise collide across owners). -/
theorem insert_isolated_without_id_collision (c : Contract) (A B : AccountId)
    (n : String) (hAB : A ≠ B)
    (hid : ∀ ids, c.tasks_by_account B = some ids → (A ++ "." ++ n) ∉ ids) :
    get_tasks (insert_task c A n) B = get_tasks c B := by
  have hidx : (insert_task c A n).tasks_by_account B = c.tasks_by_account B := by
    rw [insert_task_index, if_neg (fun h => hAB h.symm)]
  unfold get_tasks
  rw [hidx]
  cases hb : c.tasks_by_account B with
  | none => rfl
  | some ids =>
    show resolveTasks (insert_task c A n).tasks ids = resolveTasks c.tasks ids
    refine resolveTasks_congr _ _ ids ?_
    intro i hi
    rw [insert_task_tasks, if_neg ?_]
    intro h
    exact hid ids hb (h ▸ hi)

/-- Witness for the amended C6: owner `"alice"` inserting `"task_a"` leaves
`"bob"`'s listing unchanged. -/
theorem insert_isolated_without_id_collision_witness :
    ("alice" : String) ≠ "bob"
    ∧ get_tasks (insert_task (run [Op.insert "bob" "task_b"]) "alice" "task_a") "bob"
        = get_tasks (run [Op.insert "bob" "task_b"]) "bob" :=
  ⟨by decide,
   insert_isolated_without_id_collision (run [Op.insert "bob" "task_b"])
     "alice" "bob" "task_a" (by decide)
     (fun ids h => by
       have hb : (run [Op.insert "bob" "task_b"]).tasks_by_account "bob"
           = some ["bob.task_b"] := by decide
       rw [hb, Option.some.injEq] at h
       subst h
       decide)⟩

theorem insert_duplicate {c : Contract} (hI : IndexInStore c)
    (owner : AccountId) (n : String) (ids : List TaskId)
    (hidx : c.tasks_by_account owner = some ids)
    (hmem : (owner ++ "." ++ n) ∈ ids) :
    (insert_task c owner n).tasks (owner ++ "." ++ n)
        = some { id := owner ++ "." ++ n, task_name := n, task_status := "TODO" }
    ∧ (insert_task c owner n).tasks_by_account owner
        = some (ids ++ [owner ++ "." ++ n])
    ∧ ∃ l, get_tasks (insert_task c owner n) owner = some l
        ∧ 2 ≤ l.count { id := owner ++ "." ++ n, task_name := n,
                        task_status := "TODO" } := by
  have hst : (insert_task c owner n).tasks (owner ++ "." ++ n)
      = some { id := owner ++ "." ++ n, task_name := n, task_status := "TODO" } := by
    rw [insert_task_tasks, if_pos rfl]
  have hidx2 : (insert_task c owner n).tasks_by_account owner
      = some (ids ++ [owner ++ "." ++ n]) := by
    rw [insert_task_index, if_pos rfl]
    have hpl : prior_list c owner = ids := by
      unfold prior_list
      rw [hidx]
    rw [hpl]
  refine ⟨hst, hidx2, ?_⟩
  rcases get_tasks_isSome_of_indexInStore (indexInStore_insert owner n hI) owner
    with ⟨l, hl⟩
  refine ⟨l, hl, ?_⟩
  have hres : resolveTasks (insert_task c owner n).tasks
      (ids ++ [owner ++ "." ++ n]) = some l := by
    simp only [get_tasks, hidx2] at hl
    exact hl
  have hcount := resolveTasks_count _ hst _ l hres
  have h1 : 0 < ids.count (owner ++ "." ++ n) := List.count_pos_iff.mpr hmem
  have h2 : (ids ++ [owner ++ "." ++ n]).count (owner ++ "." ++ n)
      = ids.count (owner ++ "." ++ n) + 1 := by
    rw [List.count_append, List.count_singleton_self]
  rw [h2] at hcount
  exact le_trans (Nat.add_le_add h1 (le_refl 1)) hcount

/-- C7: from any reachable state in which the owner's index already contains
`owner ++ "." ++ n`, a second `insert_task owner n` overwrites the stored
record at that id with a fresh `"TODO"` task, appends a duplicate copy of the
id to the owner's index entry, and `get_tasks owner` then lists that task at
least twice. -/
theorem duplicate_insert_appends_and_overwrites (ops : List Op) (owner : AccountId)
    (n : String) (ids : List TaskId)
    (hidx : (run ops).tasks_by_account owner = some ids)
    (hmem : (owner ++ "." ++ n) ∈ ids) :
    (insert_task (run ops) owner n).tasks (owner ++ "." ++ n)
        = some { id := owner ++ "." ++ n, task_name := n, task_status := "TODO" }
    ∧ (insert_task (run ops) owner n).tasks_by_account owner
        = some (ids ++ [owner ++ "." ++ n])
    ∧ ∃ l, get_tasks (insert_task (run ops) owner n) owner = some l
        ∧ 2 ≤ l.count { id := owner ++ "." ++ n, task_name := n,
                        task_status := "TODO" } :=
  insert_duplicate (indexInStore_run ops) owner n ids hidx hmem

/-- Witness for C7: `"alice"` inserts `"task_a"` twice; the index entry gains
a duplicate id. -/
theorem duplicate_insert_appends_and_overwrites_witness :
    (run [Op.insert "alice" "task_a"]).tasks_by_account "alice" = some ["alice.task_a"]
    ∧ ("alice" ++ "." ++ "task_a") ∈ ["alice.task_a"]
    ∧ (insert_task (run [Op.insert "alice" "task_a"]) "alice" "task_a").tasks_by_account
        "alice" = some (["alice.task_a"] ++ ["alice" ++ "." ++ "task_a"]) :=
  ⟨by decide, by decide,
   (duplicate_insert_appends_and_overwrites [Op.insert "alice" "task_a"] "alice"
      "task_a" ["alice.task_a"] (by decide) (by decide)).2.1⟩

theorem update_orphan {c : Contract} (hK : StoreKeyConsistent c)
    (owner : AccountId) (n s : String)
    (hno : ∀ ids, c.tasks_by_account owner = some ids → (owner ++ "." ++ n) ∉ ids) :
    (update_task c owner n s).tasks (owner ++ "." ++ n)
        = some { id := owner ++ "." ++ n, task_name := n, task_status := s }
    ∧ get_tasks (update_task c owner n s) owner = get_tasks c owner
    ∧ ∀ l, get_tasks (update_task c owner n s) owner = some l →
        ({ id := owner ++ "." ++ n, task_name := n, task_status := s } : Task) ∉ l := by
  have hst : (update_task c owner n s).tasks (owner ++ "." ++ n)
      = some { id := owner ++ "." ++ n, task_name := n, task_status := s } := by
    rw [update_task_tasks, if_pos rfl]
  have hsame : get_tasks (update_task c owner n s) owner = get_tasks c owner := by
    unfold get_tasks
    rw [update_task_index]
    cases hb : c.tasks_by_account owner with
    | none => rfl
    | some ids =>
      show resolveTasks (update_task c owner n s).tasks ids = resolveTasks c.tasks ids
      refine resolveTasks_congr _ _ ids ?_
      intro i hi
      rw [update_task_tasks, if_neg ?_]
      intro h
      exact hno ids hb (h ▸ hi)
  refine ⟨hst, hsame, ?_⟩
  intro l hl hmem
  rw [hsame] at hl
  unfold get_tasks at hl
  cases hb : c.tasks_by_account owner with
  | none =>
    rw [hb, Option.some.injEq] at hl
    subst hl
    simp at hmem
  | some ids =>
    rw [hb] at hl
    have hl2 : resolveTasks c.tasks ids = some l := hl
    rcases resolveTasks_sound _ _ l hl2 _ hmem with ⟨k, hkids, hkt⟩
    have hkid : owner ++ "." ++ n = k := hK k _ hkt
    rw [← hkid] at hkids
    exact hno ids hb hkids

/-- C8: `update_task` never modifies `tasks_by_account` (first conjunct, for
every state); and on a reachable state whose owner index entry does not
contain `owner ++ "." ++ n`, an `update_task` still succeeds and writes the
record, but the record is invisible: `get_tasks owner` is unchanged and never
lists it. -/
theorem update_index_frame_and_orphan (c : Contract) (ops : List Op)
    (owner : AccountId) (n s : String)
    (hno : ∀ ids, (run ops).tasks_by_account owner = some ids →
      (owner ++ "." ++ n) ∉ ids) :
    (update_task c owner n s).tasks_by_account = c.tasks_by_account
    ∧ (update_task (run ops) owner n s).tasks (owner ++ "." ++ n)
        = some { id := owner ++ "." ++ n, task_name := n, task_status := s }
    ∧ get_tasks (update_task (run ops) owner n s) owner = get_tasks (run ops) owner
    ∧ ∀ l, get_tasks (update_task (run ops) owner n s) owner = some l →
        ({ id := owner ++ "." ++ n, task_name := n, task_status := s } : Task) ∉ l :=
  ⟨rfl, update_orphan (storeKeyConsistent_run ops) owner n s hno⟩

/-- Witness for C8: an orphan `update_task` by `"bob"` on the empty contract
writes a record while `get_tasks` for `"bob"` stays empty. -/
theorem update_index_frame_and_orphan_witness :
    (update_task (run []) "bob" "x" "NEW").tasks ("bob" ++ "." ++ "x")
        = some { id := "bob" ++ "." ++ "x", task_name := "x", task_status := "NEW" }
    ∧ get_tasks (update_task (run []) "bob" "x" "NEW") "bob" = get_tasks (run []) "bob" :=
  ⟨(update_index_frame_and_orphan (run []) [] "bob" "x" "NEW"
      (fun _ h => Option.noConfusion h)).2.1,
   (update_index_frame_and_orphan (run []) [] "bob" "x" "NEW"
      (fun _ h => Option.noConfusion h)).2.2.1⟩

end NearTasks
